import Mathlib

/-!
Shallow embedding of `lmformatenforcer/jsonschemaparser.py`: a character-level
incremental validator that constrains generated text to a JSON Schema.

The Python code mutates a stack of parser frames through a back-pointer to the
root.  Here the stack is an explicit `List BaseParsingState` (head = top of the
Python list `object_stack`) and each `add_character` step is a pure function
returning `Option` (`none` models a Python exception: `IndexError`,
`AttributeError`, `KeyError`, `ValueError`, or the dispatcher's
`Exception("Unsupported type ...")`).

Aliasing note: in the source, `ObjectParsingState.current_key_parser` aliases
the key-string frame sitting directly above the object frame on the stack; the
object reads `current_key_parser.parsed_string` exactly when that frame pops
itself and forwards the character `:` via `finish_parser`.  The embedding
models this by passing the popped frame as an explicit `forwarded` argument of
the step function; receiving `:` with no forwarded frame models the Python
`AttributeError` on `None.parsed_string` (`current_key_parser` is `None`
whenever the object frame is itself the top of the stack).
-/

namespace LmFormatEnforcer

/-- Characters of a Python string, as an explicit list. -/
abbrev Chars := List Char

/-- The literal `"0123456789"` used by the number frame. -/
def digitChars : Chars := ['0', '1', '2', '3', '4', '5', '6', '7', '8', '9']

/-- Modelled from the spec: the schema node type (`JsonSchemaObject`, from the
external module `lmformatenforcer/external/jsonschemaobject.py`, which is not
part of the given source).  Per spec section 3 a node carries `type`,
`properties`, `additionalProperties`, `items`, `enum`, `ref`, and the extras
maps `definitions` / `dollarDefs` (the latter models the extras key whose name
is a dollar sign followed by `defs`).  Python dicts are modelled as
association lists; `JsonSchemaObject(**class_dict)` (re-parsing a raw
definitions dictionary into a node) is modelled as the identity. -/
inductive JsonSchemaObject : Type where
  | mk
      (type : Option Chars)
      (properties : Option (List (Chars × JsonSchemaObject)))
      (additionalProperties : Option JsonSchemaObject)
      (items : Option JsonSchemaObject)
      (enum : Option (List Chars))
      (ref : Option Chars)
      (definitions : Option (List (Chars × JsonSchemaObject)))
      (dollarDefs : Option (List (Chars × JsonSchemaObject)))

def JsonSchemaObject.type : JsonSchemaObject → Option Chars
  | .mk t _ _ _ _ _ _ _ => t

def JsonSchemaObject.properties : JsonSchemaObject → Option (List (Chars × JsonSchemaObject))
  | .mk _ p _ _ _ _ _ _ => p

def JsonSchemaObject.additionalProperties : JsonSchemaObject → Option JsonSchemaObject
  | .mk _ _ a _ _ _ _ _ => a

def JsonSchemaObject.items : JsonSchemaObject → Option JsonSchemaObject
  | .mk _ _ _ i _ _ _ _ => i

def JsonSchemaObject.enum : JsonSchemaObject → Option (List Chars)
  | .mk _ _ _ _ e _ _ _ => e

def JsonSchemaObject.ref : JsonSchemaObject → Option Chars
  | .mk _ _ _ _ _ r _ _ => r

def JsonSchemaObject.definitions : JsonSchemaObject → Option (List (Chars × JsonSchemaObject))
  | .mk _ _ _ _ _ _ d _ => d

def JsonSchemaObject.dollarDefs : JsonSchemaObject → Option (List (Chars × JsonSchemaObject))
  | .mk _ _ _ _ _ _ _ d => d

/-- Python `dict.__getitem__` on an association list (`none` = `KeyError`). -/
def lookupStr {α : Type} (m : List (Chars × α)) (k : Chars) : Option α :=
  (m.find? (fun kv => kv.1 == k)).map (fun kv => kv.2)

/-- Python `dict.keys()`. -/
def keysOf {α : Type} (m : List (Chars × α)) : List Chars :=
  m.map (fun kv => kv.1)

/-- Python `list(set(a).difference(b))` (order is irrelevant downstream:
the result is only used for membership, emptiness, and as an enumeration). -/
def setDiff (a b : List Chars) : List Chars :=
  a.dedup.filter (fun k => decide (k ∉ b))

/-- Python `set(a).issuperset(b)`. -/
def isSuperset (a b : List Chars) : Bool :=
  b.all (fun k => a.contains k)

/-- Python `c.strip() == ""` for a single character (ASCII whitespace). -/
def isPyWhitespace (c : Char) : Bool :=
  c == ' ' || c == '\t' || c == '\n' || c == '\x0d' || c == '\x0b' || c == '\x0c'

/-- The free-form character class of `StringParsingState` (the source literal;
braces written via escapes). -/
def freeformChars : Chars :=
  "0123456789abcdefghijklmnopqrstuvwxyzABCDEFGHIJKLMNOPQRSTUVWXYZ!@#$%^&*()_+-=[]\x7b\x7d;:,./<>? \x27\"".toList

/-- The stages of `ObjectParsingState`. -/
inductive ObjectParsingStage : Type where
  | startObject
  | parsingKeyOrEnd
  | parsingValue
  | parsingSeparatorOrEnd
  | endObject
deriving DecidableEq

/-- The sealed set of parser frames (`BaseParsingState` subclasses).  The
object frame's `current_key_parser` back-reference is not stored: see the
aliasing note in the file header. -/
inductive BaseParsingState : Type where
  | objectState
      (schemaObject : JsonSchemaObject)
      (currentStage : ObjectParsingStage)
      (existingKeys : List Chars)
      (currentKey : Option Chars)
  | stringState
      (endingCharacters : Chars)
      (allowedStrings : Option (List Chars))
      (parsedString : Chars)
      (seenOpeningQuote : Bool)
      (seenClosingQuote : Bool)
  | numberState
      (endingCharacters : Chars)
      (allowFloatingPoint : Bool)
      (seenDecimalPoint : Bool)
      (parsedString : Chars)
  | listState
      (endingCharacters : Chars)
      (listMemberType : Option JsonSchemaObject)
      (seenListOpener : Bool)
      (seenListCloser : Bool)
      (parsedString : Chars)

/-- `parsed_string` attribute access on a frame (`none` = `AttributeError`:
the object frame has no such attribute). -/
def parsedStringOf : BaseParsingState → Option Chars
  | .stringState _ _ p _ _ => some p
  | .numberState _ _ _ p => some p
  | .listState _ _ _ _ p => some p
  | .objectState _ _ _ _ => none

/-- `ending_characters` of a primitive frame (the object frame has none). -/
def endingCharactersOf : BaseParsingState → Chars
  | .stringState e _ _ _ _ => e
  | .numberState e _ _ _ => e
  | .listState e _ _ _ _ => e
  | .objectState _ _ _ _ => []

/-- `can_end()` of the primitive frames.  `ObjectParsingState` inherits the
`NotImplementedError` stub, which is never called; the value returned for it
here is irrelevant. -/
def primCanEnd : BaseParsingState → Bool
  | .stringState _ _ _ _ sc => sc
  | .numberState _ _ _ p =>
      match p.getLast? with
      | some d => digitChars.contains d
      | none => false
  | .listState _ _ _ slc _ => slc
  | .objectState _ _ _ _ => false

/-- `_get_allowed_primitive_characters` of each frame (the object frame does
not define it; never called for it). -/
def getAllowedPrimitiveCharacters : BaseParsingState → Chars
  | .stringState _ allowedStrings parsed so sc =>
      if !so then ['"']
      else if sc then []
      else
        match allowedStrings with
        | some (s :: ss) =>
            let members := s :: ss
            let allowedContinuings :=
              (members.filter (fun m => parsed.isPrefixOf m)).map
                (fun m => m.drop parsed.length)
            let allowedNextCharacters := (allowedContinuings.filterMap List.head?).dedup
            if members.contains parsed then allowedNextCharacters ++ ['"']
            else allowedNextCharacters
        | _ => freeformChars
  | .numberState _ af sd parsed =>
      digitChars
        ++ (if parsed = [] then ['-'] else [])
        ++ (if af && !sd then ['.'] else [])
  | .listState _ _ slo slc _ =>
      if !slo then ['[']
      else if !slc then [']', ',']
      else []
  | .objectState _ _ _ _ => []

/-- `ObjectParsingState.get_allowed_characters`. -/
def objectGetAllowedCharacters (schema : JsonSchemaObject) (stage : ObjectParsingStage)
    (existingKeys : List Chars) : Chars :=
  let isDictionary := schema.properties.isNone
  let possibleKeys : Option (List Chars) := schema.properties.map keysOf
  let requiredKeys : List Chars := []
  let canEnd := isSuperset existingKeys requiredKeys
  let canParseKey := isDictionary || isSuperset (possibleKeys.getD []) existingKeys
  [' ']
    ++ (match stage with
        | .startObject => ['\x7b']
        | .parsingKeyOrEnd =>
            (if canEnd then ['\x7d'] else []) ++ (if canParseKey then ['"'] else [])
        | .parsingValue =>
            (if canEnd then ['\x7d'] else []) ++ (if canParseKey then [','] else [])
        | .parsingSeparatorOrEnd =>
            (if canEnd then ['\x7d'] else []) ++ (if canParseKey then [','] else [])
        | .endObject => [])

/-- `get_allowed_characters` of a frame: the object frame computes its own;
primitive frames combine their primitive characters with `ending_characters`
when `can_end()`. -/
def frameGetAllowedCharacters : BaseParsingState → Chars
  | .objectState s st ex _ => objectGetAllowedCharacters s st ex
  | f => getAllowedPrimitiveCharacters f ++ (if primCanEnd f then endingCharactersOf f else [])

/-- Python `value_schema.ref` truthiness (`None` and the empty string are
falsy). -/
def refTruthy : Option Chars → Bool
  | some (_ :: _) => true
  | _ => false

/-- Python `str.split('/')`. -/
def splitSlash : Chars → List Chars
  | [] => [[]]
  | c :: rest =>
      match splitSlash rest with
      | [] => [[c]]
      | s :: ss => if c = '/' then [] :: s :: ss else (c :: s) :: ss

/-- The frame dispatcher `get_parser`.  `rootSchema` is
`parsing_state.model_class` (used only to resolve a `ref` against the root
schema's extras).  Errors mirror the Python exceptions. -/
def getParser (rootSchema valueSchema : JsonSchemaObject) (endingCharacters : Chars) :
    Except String BaseParsingState :=
  if valueSchema.type = some "string".toList then
    .ok (.stringState endingCharacters valueSchema.enum [] false false)
  else if valueSchema.type = some "object".toList then
    .ok (.objectState valueSchema .startObject [] none)
  else if valueSchema.type = none ∧ refTruthy valueSchema.ref then
    let r := valueSchema.ref.getD []
    let valueClassName := (splitSlash r).getLastD []
    let resolved : Except String (List (Chars × JsonSchemaObject)) :=
      match rootSchema.definitions with
      | some defs => .ok defs
      | none =>
          match rootSchema.dollarDefs with
          | some defs => .ok defs
          | none => .error "No definitions found in schema"
    match resolved with
    | .error e => .error e
    | .ok defs =>
        match lookupStr defs valueClassName with
        | some classDict => .ok (.objectState classDict .startObject [] none)
        | none => .error "KeyError"
  else if valueSchema.type = some "integer".toList then
    .ok (.numberState endingCharacters false false [])
  else if valueSchema.type = some "number".toList then
    .ok (.numberState endingCharacters true false [])
  else if valueSchema.type = some "array".toList then
    .ok (.listState endingCharacters valueSchema.items false false [])
  else
    .error "Unsupported type"

/-- One `add_character` step on the frame stack (head = top).  `forwarded` is
the frame that just popped itself and forwarded this character via
`finish_parser` (`none` when the character comes from the driver).  `none`
result = Python exception.  A primitive frame that pops forwards its character
to the new top only when the remaining stack is non-empty
(`finish_parser`'s guard). -/
def stackAddCharacter (rootSchema : JsonSchemaObject) :
    List BaseParsingState → Char → Option BaseParsingState → Option (List BaseParsingState)
  | [], _, _ => none
  | .objectState schema stage existingKeys currentKey :: rest, c, forwarded =>
      if isPyWhitespace c then
        some (.objectState schema stage existingKeys currentKey :: rest)
      else
        match stage with
        | .startObject =>
            if c = '\x7b' then
              some (.objectState schema .parsingKeyOrEnd existingKeys currentKey :: rest)
            else
              some (.objectState schema stage existingKeys currentKey :: rest)
        | .parsingKeyOrEnd =>
            if c = '\x7d' then
              -- stage := EndObject, then finish_parser() pops this frame
              some rest
            else if c = '"' then
              let possibleKeys : Option (List Chars) :=
                match schema.properties with
                | some props => some (setDiff (keysOf props) existingKeys)
                | none => none
              let keyParsingState : BaseParsingState :=
                .stringState [':'] possibleKeys [] true false
              some (keyParsingState ::
                .objectState schema .parsingKeyOrEnd existingKeys currentKey :: rest)
            else if c = ':' then
              match forwarded with
              | none => none
              | some keyFrame =>
                  match parsedStringOf keyFrame with
                  | none => none
                  | some key =>
                      let existingKeys2 := existingKeys ++ [key]
                      let valueAndContinue :
                          Option (JsonSchemaObject × Bool) :=
                        match schema.properties with
                        | none =>
                            match schema.additionalProperties with
                            | some vs => some (vs, true)
                            | none => none
                        | some props =>
                            match lookupStr props key with
                            | some vs =>
                                some (vs, setDiff (keysOf props) existingKeys2 ≠ [])
                            | none => none
                      match valueAndContinue with
                      | none => none
                      | some (valueSchema, canContinue) =>
                          let ending := '\x7d' :: (if canContinue then [','] else [])
                          match getParser rootSchema valueSchema ending with
                          | .ok vp =>
                              some (vp ::
                                .objectState schema .parsingValue existingKeys2 (some key)
                                :: rest)
                          | .error _ => none
            else
              some (.objectState schema stage existingKeys currentKey :: rest)
        | .parsingValue =>
            if c = '"' then
              some (.objectState schema .parsingSeparatorOrEnd existingKeys currentKey :: rest)
            else if c = ',' then
              some (.objectState schema .parsingKeyOrEnd existingKeys currentKey :: rest)
            else if c = '\x7d' then
              some rest
            else
              some (.objectState schema stage existingKeys currentKey :: rest)
        | .parsingSeparatorOrEnd =>
            if c = ',' then
              some (.objectState schema .parsingKeyOrEnd existingKeys currentKey :: rest)
            else if c = '\x7d' then
              some rest
            else
              some (.objectState schema stage existingKeys currentKey :: rest)
        | .endObject =>
            some (.objectState schema stage existingKeys currentKey :: rest)
  | .stringState ending allowedStrings parsed so sc :: rest, c, _ =>
      if sc && ending.contains c then
        -- pop self and forward c (subsequent quote handling mutates only the
        -- popped frame)
        match rest with
        | [] => some []
        | _ :: _ =>
            stackAddCharacter rootSchema rest c
              (some (.stringState ending allowedStrings parsed so sc))
      else
        let parsed1 := parsed ++ [c]
        if c = '"' then
          if !so then some (.stringState ending allowedStrings [] true sc :: rest)
          else some (.stringState ending allowedStrings parsed1.dropLast so true :: rest)
        else
          some (.stringState ending allowedStrings parsed1 so sc :: rest)
  | .numberState ending af sd parsed :: rest, c, _ =>
      if primCanEnd (.numberState ending af sd parsed) && ending.contains c then
        match rest with
        | [] => some []
        | _ :: _ =>
            stackAddCharacter rootSchema rest c (some (.numberState ending af sd parsed))
      else
        some (.numberState ending af (sd || c = '.') (parsed ++ [c]) :: rest)
  | .listState ending mt slo slc parsed :: rest, c, _ =>
      if slc && ending.contains c then
        -- super() pops self and forwards c; afterwards the '[' branch would
        -- still push a child onto the resulting stack
        let popRes :=
          match rest with
          | [] => some ([] : List BaseParsingState)
          | _ :: _ =>
              stackAddCharacter rootSchema rest c (some (.listState ending mt slo slc parsed))
        if c = '[' then
          match popRes with
          | none => none
          | some s2 =>
              match mt with
              | none => none
              | some m =>
                  match getParser rootSchema m [']', ','] with
                  | .ok child => some (child :: s2)
                  | .error _ => none
        else popRes
      else
        -- super() appends to parsed_string only when seen_list_closer
        let parsed1 := if slc then parsed ++ [c] else parsed
        if c = '[' then
          match mt with
          | none => none
          | some m =>
              match getParser rootSchema m [']', ','] with
              | .ok child => some (child :: .listState ending mt true slc parsed1 :: rest)
              | .error _ => none
        else if c = ']' then
          some (.listState ending mt slo true parsed1 :: rest)
        else if c = ',' then
          if !slc then
            match mt with
            | none => none
            | some m =>
                match getParser rootSchema m [']', ','] with
                | .ok child => some (child :: .listState ending mt slo slc parsed1 :: rest)
                | .error _ => none
          else some (.listState ending mt slo slc parsed1 :: rest)
        else
          some (.listState ending mt slo slc parsed1 :: rest)

/-- The parser root `JsonSchemaParser`: the root schema node plus the frame
stack (head = top of the Python list `object_stack`). -/
structure JsonSchemaParserState : Type where
  modelClass : JsonSchemaObject
  objectStack : List BaseParsingState

/-- `JsonSchemaParser.__init__` with no `existing_stack`. -/
def initParserState (schema : JsonSchemaObject) : JsonSchemaParserState :=
  ⟨schema, [.objectState schema .startObject [] none]⟩

/-- `JsonSchemaParser.add_character` (the deep copy of the source is the
identity on this pure representation; `object_stack[-1]` on an empty stack
raises `IndexError`, modelled as `none`). -/
def addCharacter (p : JsonSchemaParserState) (c : Char) : Option JsonSchemaParserState :=
  match p.objectStack with
  | [] => none
  | top :: rest =>
      (stackAddCharacter p.modelClass (top :: rest) c none).map
        (fun s => ⟨p.modelClass, s⟩)

/-- `JsonSchemaParser.get_allowed_characters`. -/
def getAllowedCharacters (p : JsonSchemaParserState) : Chars :=
  match p.objectStack with
  | [] => []
  | top :: _ => frameGetAllowedCharacters top

/-- `JsonSchemaParser.can_end`. -/
def canEnd (p : JsonSchemaParserState) : Bool :=
  p.objectStack.isEmpty

/-- Feed a sequence of characters, one `add_character` at a time. -/
def feedChars (p : JsonSchemaParserState) : Chars → Option JsonSchemaParserState
  | [] => some p
  | c :: cs =>
      match addCharacter p c with
      | some p2 => feedChars p2 cs
      | none => none

/-- The driver-loop check behind spec scenario (a): before each character the
allowed set is non-empty and contains the character about to be fed; at the
end of the input `can_end()` holds. -/
def traceOk (p : JsonSchemaParserState) : Chars → Bool
  | [] => canEnd p
  | c :: cs =>
      !(getAllowedCharacters p).isEmpty
        && (getAllowedCharacters p).contains c
        && (match addCharacter p c with
            | some p2 => traceOk p2 cs
            | none => false)

/-! ### Concrete schemas for the spec scenarios -/

/-- `\x7b "type": "integer" \x7d`. -/
def intSchema : JsonSchemaObject :=
  .mk (some "integer".toList) none none none none none none none

/-- Scenario (a)/(b): an object schema with a single integer property `n`. -/
def schemaN : JsonSchemaObject :=
  .mk (some "object".toList) (some [("n".toList, intSchema)]) none none none none none none

/-- `\x7b "type": "string" \x7d`. -/
def strSchema : JsonSchemaObject :=
  .mk (some "string".toList) none none none none none none none

/-- An object schema with a single string property `s`. -/
def schemaS : JsonSchemaObject :=
  .mk (some "object".toList) (some [("s".toList, strSchema)]) none none none none none none

/-- `\x7b "type": "string", "enum": ["yes", "no"] \x7d`. -/
def enumYesNoSchema : JsonSchemaObject :=
  .mk (some "string".toList) none none none (some ["yes".toList, "no".toList]) none none none

/-- Scenario (c): an object schema with a single enum-string property `flag`. -/
def schemaFlag : JsonSchemaObject :=
  .mk (some "object".toList) (some [("flag".toList, enumYesNoSchema)]) none none none none none none

/-- The input of scenario (a). -/
def inputN : Chars := ['\x7b', '"', 'n', '"', ':', '4', '2', '\x7d']

/-- The prefix of scenario (b). -/
def inputN6 : Chars := ['\x7b', '"', 'n', '"', ':', '4']

/-- The input of the counterexample to claim C5: an object with one string
property, fed up to and including the closing quote of the value string. -/
def inputS : Chars := ['\x7b', '"', 's', '"', ':', '"', 'a', '"']

/-- `\x7b "type": "number" \x7d`. -/
def numSchema : JsonSchemaObject :=
  .mk (some "number".toList) none none none none none none none

/-- Scenario (d): an array schema whose items are numbers. -/
def arrNumSchema : JsonSchemaObject :=
  .mk (some "array".toList) none none (some numSchema) none none none none

/-- Scenario (e): the referenced definition `Inner`, an object with one
integer property `x`. -/
def innerSchema : JsonSchemaObject :=
  .mk (some "object".toList) (some [("x".toList, intSchema)]) none none none none none none

/-- Scenario (e): a root schema holding `Inner` under its definitions map. -/
def refRootSchema : JsonSchemaObject :=
  .mk (some "object".toList) none none none none none
    (some [("Inner".toList, innerSchema)]) none

/-- Scenario (e): a value schema with no type and a reference to
`#/definitions/Inner`. -/
def refValueSchema : JsonSchemaObject :=
  .mk none none none none none (some "#/definitions/Inner".toList) none none

/-! ### Definitions for the number-frame invariant (claim C6) -/

/-- Tail of a JSON number literal after its first digit: further digits, then
an optional fraction part (a decimal point followed by at least one digit).
Written from spec section 4.4 (no exponents, no other characters). -/
def numTail : Chars → Bool
  | [] => true
  | c :: rest =>
      if c = '.' then decide (rest ≠ []) && rest.all (fun d => digitChars.contains d)
      else digitChars.contains c && numTail rest

/-- A JSON number literal without sign: one or more digits, then an optional
fraction part. -/
def numLitNoSign : Chars → Bool
  | [] => false
  | c :: rest => digitChars.contains c && numTail rest

/-- A JSON number literal as recognized by this system (spec section 4.4):
optional leading minus, digits, optional fraction; no exponent. -/
def numLit (l : Chars) : Bool :=
  match l with
  | [] => false
  | c :: rest => if c = '-' then numLitNoSign rest else numLitNoSign (c :: rest)

/-- The claim's notion of "valid prefix of a JSON number literal": the string
extends to some complete literal. -/
def extendsToNumLit (p : Chars) : Prop :=
  ∃ ext, numLit (p ++ ext) = true

/-- A number frame driven in isolation under the caller contract: each fed
character must be in the frame's allowed set, and must not be a terminator
that pops the frame (the frame survives the whole trace).  State is
`(seen_decimal_point, parsed_string)`. -/
def numberReach (ending : Chars) (af : Bool) : Bool × Chars → Chars → Option (Bool × Chars)
  | st, [] => some st
  | (sd, parsed), c :: cs =>
      if (frameGetAllowedCharacters (.numberState ending af sd parsed)).contains c
          && !(primCanEnd (.numberState ending af sd parsed) && ending.contains c) then
        numberReach ending af (sd || c = '.', parsed ++ [c]) cs
      else none

/-- The shape the number frame actually guarantees for `parsed_string`: every
character is a digit, a minus, or a decimal point; a minus occurs only in the
first position; at most one decimal point; a decimal point only when floating
point is allowed. -/
def goodNumberString (af : Bool) (p : Chars) : Prop :=
  (∀ c ∈ p, c ∈ digitChars ∨ c = '-' ∨ c = '.')
    ∧ (∀ c ∈ p.drop 1, c ≠ '-')
    ∧ p.count '.' ≤ 1
    ∧ ('.' ∈ p → af = true)

/-- The full invariant carried through a number-frame trace: the parsed string
is well-shaped and `seen_decimal_point` tracks the presence of a decimal
point. -/
def numberInv (af : Bool) : Bool × Chars → Prop
  | (sd, p) => goodNumberString af p ∧ (sd = true ↔ '.' ∈ p)

/-! ### Helper lemmas -/

/-- `l.contains a` agrees with list membership. -/
theorem contains_eq_true_iff {α : Type} [BEq α] [LawfulBEq α] (l : List α) (a : α) :
    l.contains a = true ↔ a ∈ l := by
  simp [List.contains]

/-- `isSuperset a b` is set-containment of `b` in `a`. -/
theorem isSuperset_eq_true_iff (a b : List Chars) :
    isSuperset a b = true ↔ ∀ k ∈ b, k ∈ a := by
  simp [isSuperset, List.all_eq_true, contains_eq_true_iff]

/-- No element of `b` survives in `setDiff a b`. -/
theorem not_mem_setDiff (a b : List Chars) : ∀ k ∈ b, k ∉ setDiff a b := by
  intro k hk hmem
  simp only [setDiff, List.mem_filter, decide_eq_true_eq] at hmem
  exact hmem.2 hk

/-- `List.isPrefixOf` is existence of a completing suffix. -/
theorem isPrefixOf_eq_true_iff (a b : Chars) : a.isPrefixOf b = true ↔ ∃ t, b = a ++ t := by
  induction a generalizing b with
  | nil => simp [List.isPrefixOf]
  | cons x xs ih =>
      cases b with
      | nil => simp [List.isPrefixOf]
      | cons y ys =>
          simp only [List.isPrefixOf, Bool.and_eq_true, beq_iff_eq, ih, List.cons_append,
            List.cons.injEq]
          constructor
          · rintro ⟨rfl, t, rfl⟩
            exact ⟨t, rfl, rfl⟩
          · rintro ⟨t, rfl, rfl⟩
            exact ⟨rfl, t, rfl⟩

/-- Membership in the enumeration-derived next characters of a string frame:
exactly the characters that continue `parsed` inside some member. -/
theorem mem_enum_nexts_iff (ms0 : List Chars) (parsed : Chars) (c : Char) :
    c ∈ ((ms0.filter (fun x => parsed.isPrefixOf x)).map
          (fun x => x.drop parsed.length)).filterMap List.head?
      ↔ ∃ mem ∈ ms0, ∃ t, mem = parsed ++ c :: t := by
  constructor
  · intro h
    obtain ⟨a, ha, hhead⟩ := List.mem_filterMap.1 h
    obtain ⟨x, hx, rfl⟩ := List.mem_map.1 ha
    obtain ⟨hxm, hpref2⟩ := List.mem_filter.1 hx
    obtain ⟨t, rfl⟩ := (isPrefixOf_eq_true_iff parsed x).1 hpref2
    rw [List.drop_left] at hhead
    cases t with
    | nil => simp at hhead
    | cons u us =>
        simp at hhead
        subst hhead
        exact ⟨parsed ++ u :: us, hxm, us, rfl⟩
  · rintro ⟨mem, hmem, t, rfl⟩
    apply List.mem_filterMap.2
    refine ⟨c :: t, ?_, rfl⟩
    apply List.mem_map.2
    refine ⟨parsed ++ c :: t, ?_, ?_⟩
    · exact List.mem_filter.2 ⟨hmem, (isPrefixOf_eq_true_iff parsed _).2 ⟨c :: t, rfl⟩⟩
    · exact List.drop_left _ _

/-- The isolated number-frame step taken by `numberReach` agrees with the
full stack step whenever the frame is not popped. -/
theorem numberState_step_eq (root : JsonSchemaObject) (e : Chars) (af sd : Bool)
    (p : Chars) (rest : List BaseParsingState) (c : Char) (fwd : Option BaseParsingState)
    (h : (primCanEnd (.numberState e af sd p) && e.contains c) = false) :
    stackAddCharacter root (.numberState e af sd p :: rest) c fwd
      = some (.numberState e af (sd || c = '.') (p ++ [c]) :: rest) := by
  simp only [stackAddCharacter, h, Bool.false_eq_true, if_false]

/-- No digit is a minus or a decimal point. -/
theorem digit_ne_minus_dot : ∀ c ∈ digitChars, c ≠ '-' ∧ c ≠ '.' := by decide

/-- One surviving allowed step preserves the number-frame invariant. -/
theorem numberInv_step (e : Chars) (af sd : Bool) (p : Chars) (c : Char)
    (hInv : numberInv af (sd, p))
    (hAllowed : (frameGetAllowedCharacters (.numberState e af sd p)).contains c = true)
    (hSurvive : (primCanEnd (.numberState e af sd p) && e.contains c) = false) :
    numberInv af (sd || c = '.', p ++ [c]) := by
  obtain ⟨⟨h1, h2, h3, h4⟩, hsd⟩ := hInv
  have hmem : c ∈ frameGetAllowedCharacters (.numberState e af sd p) :=
    (contains_eq_true_iff _ _).1 hAllowed
  have hprim : c ∈ getAllowedPrimitiveCharacters (.numberState e af sd p) := by
    rcases List.mem_append.1 hmem with h | h
    · exact h
    · exfalso
      by_cases hce : primCanEnd (.numberState e af sd p) = true
      · rw [if_pos hce] at h
        have h2c : List.contains e c = true := (contains_eq_true_iff e c).2 h
        rw [hce, h2c] at hSurvive
        simp at hSurvive
      · rw [if_neg hce] at h
        exact absurd h (List.not_mem_nil c)
  rcases List.mem_append.1 hprim with h12 | hdot
  · rcases List.mem_append.1 h12 with hd | hminus
    · -- c is a digit
      obtain ⟨hcm, hcd⟩ := digit_ne_minus_dot c hd
      refine ⟨⟨?_, ?_, ?_, ?_⟩, ?_⟩
      · intro x hx
        rcases List.mem_append.1 hx with hx | hx
        · exact h1 x hx
        · simp at hx; subst hx; exact Or.inl hd
      · intro x hx
        cases p with
        | nil => simp at hx
        | cons a q =>
            rcases List.mem_append.1 hx with hx | hx
            · exact h2 x hx
            · simp at hx; subst hx; exact hcm
      · rw [List.count_append]
        have : List.count '.' [c] = 0 := by
          simp [List.count_singleton', hcd.symm]
        omega
      · intro hx
        rcases List.mem_append.1 hx with hx | hx
        · exact h4 hx
        · simp at hx; exact absurd hx.symm hcd
      · have : decide (c = '.') = false := by simp [hcd]
        rw [this, Bool.or_false]
        rw [hsd]
        simp [hcd.symm, Ne.symm hcd]
    · -- c is the minus sign, so parsed was empty
      by_cases hp : p = []
      · rw [if_pos hp] at hminus
        simp at hminus
        subst hminus
        subst hp
        have hsdf : sd = false := by
          cases sd with
          | false => rfl
          | true => exact absurd (hsd.1 rfl) (List.not_mem_nil '.')
        subst hsdf
        refine ⟨⟨?_, ?_, ?_, ?_⟩, ?_⟩ <;> simp
      · rw [if_neg hp] at hminus
        exact absurd hminus (List.not_mem_nil c)
  · -- c is the decimal point, allowed only when floating point and no dot yet
    by_cases haf : (af && !sd) = true
    · rw [if_pos haf] at hdot
      simp at hdot
      subst hdot
      simp only [Bool.and_eq_true, Bool.not_eq_true'] at haf
      obtain ⟨hafT, hsdF⟩ := haf
      subst hsdF
      have hnp : '.' ∉ p := fun hx => by
        have := hsd.2 hx
        simp at this
      refine ⟨⟨?_, ?_, ?_, ?_⟩, ?_⟩
      · intro x hx
        rcases List.mem_append.1 hx with hx | hx
        · exact h1 x hx
        · simp at hx; subst hx; exact Or.inr (Or.inr rfl)
      · intro x hx
        cases p with
        | nil => simp at hx
        | cons a q =>
            rcases List.mem_append.1 hx with hx | hx
            · exact h2 x hx
            · simp at hx; subst hx; decide
      · rw [List.count_append]
        have hz : List.count '.' p = 0 := List.count_eq_zero.2 hnp
        have : List.count '.' ['.'] = 1 := by simp
        omega
      · intro _; exact hafT
      · simp
    · rw [if_neg haf] at hdot
      exact absurd hdot (List.not_mem_nil c)

/-- The number-frame invariant holds along every surviving allowed trace, and
the parsed string grows by exactly one character per step. -/
theorem numberReach_inv (e : Chars) (af : Bool) :
    ∀ (cs : Chars) (st st' : Bool × Chars), numberInv af st →
      numberReach e af st cs = some st' →
      numberInv af st' ∧ st'.2.length = st.2.length + cs.length := by
  intro cs
  induction cs with
  | nil =>
      intro st st' hInv h
      simp [numberReach] at h
      subst h
      exact ⟨hInv, by simp⟩
  | cons c cs ih =>
      intro st st' hInv h
      obtain ⟨sd, p⟩ := st
      unfold numberReach at h
      by_cases hc :
          ((frameGetAllowedCharacters (.numberState e af sd p)).contains c
            && !(primCanEnd (.numberState e af sd p) && e.contains c)) = true
      · rw [if_pos hc] at h
        simp only [Bool.and_eq_true, Bool.not_eq_true'] at hc
        obtain ⟨hAllowed, hSurvive⟩ := hc
        obtain ⟨inv2, hlen⟩ :=
          ih (sd || c = '.', p ++ [c]) st' (numberInv_step e af sd p c hInv hAllowed hSurvive) h
        refine ⟨inv2, ?_⟩
        simp at hlen ⊢
        omega
      · rw [if_neg hc] at h
        exact absurd h (by simp)

/-! ### Claim theorems -/

/-- Claim C1: for the schema with a single integer property `n`, feeding
`\x7b"n":42\x7d` one character at a time, the allowed-character set before
each character is non-empty and contains that character, and after the final
closing brace the stack is empty and `can_end()` is true. -/
theorem claimC1_full_trace :
    traceOk (initParserState schemaN) inputN = true
      ∧ (feedChars (initParserState schemaN) inputN).map (fun p => p.objectStack) = some []
      ∧ (feedChars (initParserState schemaN) inputN).map canEnd = some true :=
  ⟨by decide, rfl, rfl⟩

/-- Counterexample to claim C2: after feeding `\x7b"n":4`, the allowed set is
exactly the ten digits followed by the closing brace; in particular the comma
(which the claim says must be included) is absent, because the only property
`n` is already among the existing keys, so the value frame's ending characters
were computed without a comma. -/
theorem claimC2_counterexample :
    (feedChars (initParserState schemaN) inputN6).map getAllowedCharacters
        = some (digitChars ++ ['\x7d'])
      ∧ ',' ∉ digitChars ++ ['\x7d'] :=
  ⟨rfl, by decide⟩

/-- Claim C2 as amended: after feeding `\x7b"n":4`, the allowed set contains
every digit and the closing brace, and contains neither the comma nor the
decimal point. -/
theorem claimC2_amended :
    ∃ p, feedChars (initParserState schemaN) inputN6 = some p
      ∧ (∀ d ∈ digitChars, d ∈ getAllowedCharacters p)
      ∧ '\x7d' ∈ getAllowedCharacters p
      ∧ ',' ∉ getAllowedCharacters p
      ∧ '.' ∉ getAllowedCharacters p := by
  refine ⟨_, rfl, ?_, ?_, ?_, ?_⟩ <;> decide

/-- Claim C3: `add_character` on a parser whose `can_end()` is true (empty
stack) fails (Python `IndexError` on `object_stack[-1]`) instead of consuming
the character. -/
theorem claimC3_add_after_end (p : JsonSchemaParserState) (c : Char)
    (h : canEnd p = true) : addCharacter p c = none := by
  obtain ⟨m, stack⟩ := p
  cases stack with
  | nil => rfl
  | cons a l => simp [canEnd, List.isEmpty] at h

/-- Witness for claim C3 at a concrete finished parser. -/
theorem claimC3_witness :
    canEnd ⟨schemaN, []⟩ = true ∧ addCharacter ⟨schemaN, []⟩ 'x' = none :=
  ⟨rfl, claimC3_add_after_end ⟨schemaN, []⟩ 'x' rfl⟩

/-- Counterexample to claim C4: an object frame for the single-property schema
`schemaN` whose `existing_keys` already contains its only property `n`, in
stage ParsingKeyOrEnd.  The quote character is still allowed (the code's
`can_parse_key` tests `possible_keys ⊇ existing_keys`, which holds), yet every
property name is already in `existing_keys`.  Such a frame is directly
constructible through the constructor's `existing_stack` argument. -/
theorem claimC4_counterexample :
    '"' ∈ frameGetAllowedCharacters
        (.objectState schemaN .parsingKeyOrEnd ["n".toList] none)
      ∧ ∀ k ∈ keysOf [("n".toList, intSchema)], k ∈ (["n".toList] : List Chars) := by
  constructor <;> decide

/-- Claim C4 as amended: for a non-dictionary object frame in stage
ParsingKeyOrEnd, the quote is allowed exactly when every existing key is a
property name (the code's superset test, rather than "some property remains
unseen"); and when the quote is consumed, the key parser pushed on the stack
enumerates exactly the property names minus the existing keys, so no existing
key can be completed again while that enumeration is non-empty. -/
theorem claimC4_amended :
    (∀ (schema : JsonSchemaObject) props ex ck, schema.properties = some props →
        ('"' ∈ frameGetAllowedCharacters (.objectState schema .parsingKeyOrEnd ex ck)
          ↔ ∀ k ∈ ex, k ∈ keysOf props))
      ∧ (∀ (root schema : JsonSchemaObject) props ex ck rest fwd,
          schema.properties = some props →
          stackAddCharacter root (.objectState schema .parsingKeyOrEnd ex ck :: rest) '"' fwd
              = some (.stringState [':'] (some (setDiff (keysOf props) ex)) [] true false
                  :: .objectState schema .parsingKeyOrEnd ex ck :: rest)
            ∧ ∀ k ∈ ex, k ∉ setDiff (keysOf props) ex) := by
  constructor
  · intro schema props ex ck h
    simp only [frameGetAllowedCharacters, objectGetAllowedCharacters, h]
    simp [isSuperset_eq_true_iff, isSuperset]
  · intro root schema props ex ck rest fwd h
    refine ⟨?_, not_mem_setDiff _ _⟩
    simp [stackAddCharacter, h, isPyWhitespace]

/-- Witness for the amended claim C4 at the concrete frame of the
counterexample. -/
theorem claimC4_witness :
    ('"' ∈ frameGetAllowedCharacters
        (.objectState schemaN .parsingKeyOrEnd ["n".toList] none)
      ↔ ∀ k ∈ ["n".toList], k ∈ keysOf [("n".toList, intSchema)]) :=
  claimC4_amended.1 schemaN [("n".toList, intSchema)] ["n".toList] none rfl

/-- Counterexample to claim C5: for an object with one string property `s`,
immediately after the closing quote of the value string (input
`\x7b"s":"a"`), the string value frame is still on the stack — it has
`seen_closing_quote` set but has not popped, and nothing was forwarded to the
object frame, which is still in stage ParsingValue. -/
theorem claimC5_counterexample :
    (feedChars (initParserState schemaS) inputS).map (fun p => p.objectStack)
      = some [.stringState ['\x7d'] none "a".toList true true,
              .objectState schemaS .parsingValue ["s".toList] (some "s".toList)] := rfl

/-- Claim C5 as amended: a string value frame does not pop when it consumes
its closing quote; it stays on the stack with `seen_closing_quote` set (first
conjunct).  Like number and list frames, it pops on the next character, which
must be one of its ending characters, and forwards that character to its
parent (second conjunct). -/
theorem claimC5_amended :
    (∀ (root : JsonSchemaObject) e a p rest fwd,
        stackAddCharacter root (.stringState e a p true false :: rest) '"' fwd
          = some (.stringState e a p true true :: rest))
      ∧ (∀ (root : JsonSchemaObject) e a p c rest fwd, e.contains c = true →
          stackAddCharacter root (.stringState e a p true true :: rest) c fwd
            = match rest with
              | [] => some []
              | _ :: _ => stackAddCharacter root rest c (some (.stringState e a p true true))) := by
  constructor
  · intro root e a p rest fwd
    simp [stackAddCharacter]
  · intro root e a p c rest fwd h
    rw [contains_eq_true_iff] at h
    simp [stackAddCharacter, h]

/-- Witness for the amended claim C5: the string frame of the counterexample
state pops on the next character `\x7d`, forwarding it to the object frame,
which completes the parse. -/
theorem claimC5_witness :
    (['\x7d'] : Chars).contains '\x7d' = true
      ∧ stackAddCharacter schemaS
          [.stringState ['\x7d'] none "a".toList true true,
           .objectState schemaS .parsingValue ["s".toList] (some "s".toList)] '\x7d' none
        = some [] := by
  refine ⟨by decide, ?_⟩
  rw [claimC5_amended.2 schemaS ['\x7d'] none "a".toList '\x7d'
    [.objectState schemaS .parsingValue ["s".toList] (some "s".toList)] none (by decide)]
  rfl

/-- Counterexample to claim C6: a fresh floating-point number frame accepts a
lone decimal point as its first character (the point is in the allowed set
while `parsed_string` is empty), after which `parsed_string` is `"."`, which
is not a prefix of any JSON number literal. -/
theorem claimC6_counterexample :
    numberReach ['\x7d'] true (false, []) ['.'] = some (true, ['.'])
      ∧ ¬ extendsToNumLit ['.'] := by
  refine ⟨rfl, ?_⟩
  rintro ⟨ext, hext⟩
  have h0 : numLit (['.'] ++ ext) = false := rfl
  rw [h0] at hext
  exact Bool.false_ne_true hext

/-- Claim C6 as amended: along any surviving trace of allowed characters, a
number frame's `parsed_string` is non-empty (once a character was accepted)
and consists of an optional leading minus followed by digits and at most one
decimal point — the decimal point may sit anywhere, even first, so the string
need not be a prefix of a JSON number literal — and a decimal point occurs
only when floating point is allowed. -/
theorem claimC6_amended (e : Chars) (af : Bool) (cs : Chars) (sd : Bool) (p : Chars)
    (h : numberReach e af (false, []) cs = some (sd, p)) :
    (cs ≠ [] → p ≠ []) ∧ goodNumberString af p := by
  have h0 : numberInv af (false, []) := by
    refine ⟨⟨?_, ?_, ?_, ?_⟩, ?_⟩ <;> simp
  obtain ⟨hinv, hlen⟩ := numberReach_inv e af cs (false, []) (sd, p) h0 h
  refine ⟨?_, hinv.1⟩
  intro hcs hp
  subst hp
  simp at hlen
  exact hcs (List.eq_nil_of_length_eq_zero hlen.symm)

/-- Witness for the amended claim C6 on the surviving trace `1.5` of a
floating-point number frame. -/
theorem claimC6_witness :
    ((['1', '.', '5'] : Chars) ≠ [] → (['1', '.', '5'] : Chars) ≠ [])
      ∧ goodNumberString true ['1', '.', '5'] :=
  claimC6_amended ['\x7d'] true ['1', '.', '5'] true ['1', '.', '5'] rfl

/-- Claim C7: for a string frame with a non-empty enumeration, after the
opening quote and before the closing quote, the allowed characters are
exactly the next characters of enumeration members that strictly extend
`parsed_string`, plus the closing quote when `parsed_string` is itself a
member; in particular, for the `flag` enum schema, after `\x7b"flag":"y` the
allowed set is exactly `[e]`. -/
theorem claimC7_enum_allowed :
    (∀ (e : Chars) (m : Chars) (ms : List Chars) (parsed : Chars) (c : Char),
        c ∈ frameGetAllowedCharacters (.stringState e (some (m :: ms)) parsed true false)
          ↔ ((∃ mem ∈ m :: ms, ∃ t, mem = parsed ++ c :: t)
              ∨ (c = '"' ∧ parsed ∈ m :: ms)))
      ∧ (feedChars (initParserState schemaFlag)
            ['\x7b', '"', 'f', 'l', 'a', 'g', '"', ':', '"', 'y']).map getAllowedCharacters
          = some ['e'] := by
  constructor
  · intro e m ms parsed c
    have hfr : frameGetAllowedCharacters (.stringState e (some (m :: ms)) parsed true false)
        = (if (m :: ms).contains parsed
           then ((((m :: ms).filter (fun x => parsed.isPrefixOf x)).map
                  (fun x => x.drop parsed.length)).filterMap List.head?).dedup ++ ['"']
           else ((((m :: ms).filter (fun x => parsed.isPrefixOf x)).map
                  (fun x => x.drop parsed.length)).filterMap List.head?).dedup) ++ [] := rfl
    rw [hfr, List.append_nil]
    by_cases hp : parsed ∈ m :: ms
    · rw [if_pos ((contains_eq_true_iff _ _).2 hp)]
      simp only [List.mem_append, List.mem_dedup, List.mem_singleton]
      rw [mem_enum_nexts_iff]
      constructor
      · rintro (h | h)
        · exact Or.inl h
        · exact Or.inr ⟨h, hp⟩
      · rintro (h | ⟨h, _⟩)
        · exact Or.inl h
        · exact Or.inr h
    · rw [if_neg (fun hcc => hp ((contains_eq_true_iff _ _).1 hcc))]
      rw [List.mem_dedup, mem_enum_nexts_iff]
      constructor
      · exact Or.inl
      · rintro (h | ⟨_, h⟩)
        · exact h
        · exact absurd h hp
  · rfl

/-- Witness for claim C7 at the concrete enum frame reached after
`\x7b"flag":"y`. -/
theorem claimC7_witness :
    'e' ∈ frameGetAllowedCharacters
        (.stringState ['\x7d'] (some ["yes".toList, "no".toList]) ['y'] true false)
      ↔ ((∃ mem ∈ ["yes".toList, "no".toList], ∃ t, mem = ['y'] ++ 'e' :: t)
          ∨ ('e' = '"' ∧ ['y'] ∈ ["yes".toList, "no".toList])) :=
  claimC7_enum_allowed.1 ['\x7d'] "yes".toList ["no".toList] ['y'] 'e'

/-- Claim C8: a number frame's `can_end()` is true exactly when
`parsed_string` is non-empty and ends in a digit; equivalently, the frame is
never complete when the last accepted character is not a digit. -/
theorem claimC8_number_canEnd (e : Chars) (af sd : Bool) (p : Chars) :
    primCanEnd (.numberState e af sd p) = true
      ↔ ∃ l d, p = l ++ [d] ∧ d ∈ digitChars := by
  rcases List.eq_nil_or_concat p with rfl | ⟨l, d, rfl⟩
  · simp [primCanEnd]
  · simp only [List.concat_eq_append]
    have hgl : (l ++ [d]).getLast? = some d := by simp
    constructor
    · intro hd
      have h2 : (match (l ++ [d]).getLast? with
          | some x => digitChars.contains x
          | none => false) = true := hd
      rw [hgl] at h2
      exact ⟨l, d, rfl, (contains_eq_true_iff _ _).1 h2⟩
    · rintro ⟨l2, d2, heq, hd2⟩
      have hsome : some d = some d2 := by
        have h4 := congrArg List.getLast? heq
        simpa using h4
      obtain rfl : d = d2 := Option.some.inj hsome
      show (match (l ++ [d]).getLast? with
          | some x => digitChars.contains x
          | none => false) = true
      rw [hgl]
      exact (contains_eq_true_iff _ _).2 hd2

/-- Witness for claim C8 at a concrete frame with parsed string `4`. -/
theorem claimC8_witness :
    primCanEnd (.numberState ['\x7d'] false false ['4']) = true
      ↔ ∃ l d, ['4'] = l ++ [d] ∧ d ∈ digitChars :=
  claimC8_number_canEnd ['\x7d'] false false ['4']

/-- Claim C9: the dispatcher, given a schema with no type and a non-empty
`ref`, raises when the root schema's extras hold neither a definitions map
nor a dollar-defs map; when one is present, the final path segment of the
reference is resolved in it and an object frame is built from the referenced
dictionary. -/
theorem claimC9_ref_dispatch (root vs : JsonSchemaObject) (e : Chars) (r : Chars)
    (htype : vs.type = none) (href : vs.ref = some r) (hr : r ≠ []) :
    (root.definitions = none → root.dollarDefs = none →
        getParser root vs e = .error "No definitions found in schema")
      ∧ (∀ defs d, root.definitions = some defs →
          lookupStr defs ((splitSlash r).getLastD []) = some d →
          getParser root vs e = .ok (.objectState d .startObject [] none))
      ∧ (∀ defs d, root.definitions = none → root.dollarDefs = some defs →
          lookupStr defs ((splitSlash r).getLastD []) = some d →
          getParser root vs e = .ok (.objectState d .startObject [] none)) := by
  obtain ⟨c0, r0, rfl⟩ : ∃ c0 r0, r = c0 :: r0 := by
    cases r with
    | nil => exact absurd rfl hr
    | cons c0 r0 => exact ⟨c0, r0, rfl⟩
  refine ⟨?_, ?_, ?_⟩
  · intro h1 h2
    simp [getParser, htype, href, refTruthy, h1, h2]
  · intro defs d hdefs hlk
    simp only [List.getLastD_eq_getLast?] at hlk
    simp [getParser, htype, href, refTruthy, hdefs, hlk]
  · intro defs d hdefs hdd hlk
    simp only [List.getLastD_eq_getLast?] at hlk
    simp [getParser, htype, href, refTruthy, hdefs, hdd, hlk]

/-- Witness for claim C9: scenario (e)'s reference `#/definitions/Inner`
resolves to an object frame for `Inner`. -/
theorem claimC9_witness :
    getParser refRootSchema refValueSchema ['\x7d']
      = .ok (.objectState innerSchema .startObject [] none) :=
  (claimC9_ref_dispatch refRootSchema refValueSchema ['\x7d'] "#/definitions/Inner".toList
      rfl rfl (by decide)).2.1 [("Inner".toList, innerSchema)] innerSchema rfl rfl

/-- Any frame freshly built by the dispatcher does not allow `]` as its first
character. -/
theorem getParser_fresh_no_bracket (root s : JsonSchemaObject) (e : Chars)
    (f : BaseParsingState) (h : getParser root s e = .ok f) :
    ']' ∉ frameGetAllowedCharacters f := by
  unfold getParser at h
  split_ifs at h with h1 h2 h3 h4 h5 h6
  · cases h
    show ']' ∉ (['"'] : Chars)
    decide
  · cases h
    show ']' ∉ ([' ', '\x7b'] : Chars)
    decide
  · rcases hdef : root.definitions with _ | defs
    · rw [hdef] at h
      rcases hdd : root.dollarDefs with _ | defs
      · rw [hdd] at h
        simp at h
      · rw [hdd] at h
        simp only at h
        rcases hlk : lookupStr defs ((splitSlash (s.ref.getD [])).getLastD []) with _ | d
        · rw [hlk] at h
          simp at h
        · rw [hlk] at h
          simp only at h
          cases h
          show ']' ∉ ([' ', '\x7b'] : Chars)
          decide
    · rw [hdef] at h
      simp only at h
      rcases hlk : lookupStr defs ((splitSlash (s.ref.getD [])).getLastD []) with _ | d
      · rw [hlk] at h
        simp at h
      · rw [hlk] at h
        simp only at h
        cases h
        show ']' ∉ ([' ', '\x7b'] : Chars)
        decide
  · cases h
    show ']' ∉ (digitChars ++ ['-'] ++ [] : Chars)
    decide
  · cases h
    show ']' ∉ (digitChars ++ ['-'] ++ ['.'] : Chars)
    decide
  · cases h
    show ']' ∉ (['['] : Chars)
    decide

/-- Claim C10: a list frame that has not yet seen its closer pushes a fresh
item frame immediately upon consuming the opening bracket, and the closing
bracket is not an allowed next character of that fresh item frame — so the
step directly after the opening bracket can never close the list. -/
theorem claimC10_push_on_open (root : JsonSchemaObject) (e : Chars) (m : JsonSchemaObject)
    (slo : Bool) (parsed : Chars) (rest : List BaseParsingState) (fwd : Option BaseParsingState)
    (child : BaseParsingState) (h : getParser root m [']', ','] = .ok child) :
    stackAddCharacter root (.listState e (some m) slo false parsed :: rest) '[' fwd
        = some (child :: .listState e (some m) true false parsed :: rest)
      ∧ ']' ∉ frameGetAllowedCharacters child := by
  refine ⟨?_, getParser_fresh_no_bracket root m [']', ','] child h⟩
  simp [stackAddCharacter, h]

/-- Witness for claim C10: the number-items array schema of scenario (d). -/
theorem claimC10_witness :
    stackAddCharacter arrNumSchema
        [.listState [']', ','] (some numSchema) false false []] '[' none
        = some [.numberState [']', ','] true false [],
                .listState [']', ','] (some numSchema) true false []]
      ∧ ']' ∉ frameGetAllowedCharacters (.numberState [']', ','] true false []) :=
  claimC10_push_on_open arrNumSchema [']', ','] numSchema false [] [] none
    (.numberState [']', ','] true false []) rfl

end LmFormatEnforcer
